import Mathlib

/-!
Shallow embedding of `cleanco/clean.py` (business-name cleaning).

Strings are modelled as `List Char`.  The Unicode library primitives the
source delegates to (`str.casefold`, `unicodedata.combining`, the
NFKD-based `remove_accents`, `str.isalnum`) are collaborators outside the
repository; they are abstracted as fields of `UnicodeLib`, and an ASCII
instance `asciiLib` is provided for concrete evaluation.  Everything else
(`strip_punct`, `strip_tail`, `normalized`, `prepare_default_terms`,
`build_automaton`, `custom_basename`, ...) is translated directly from the
source.  Python's fallible list indexing `nparts[idx]` is modelled with
`Option` (a `none` result corresponds to an `IndexError`), and the
process-global `global_automaton` cache is modelled by explicit state
passing: `custom_basename` takes the current cache and returns the updated
cache alongside its result.
-/

/-- ASCII whitespace characters recognized by Python's default `str.split`
(restriction of `str.isspace` to ASCII). -/
def isSpacePy (c : Char) : Bool :=
  c == ' ' || c == '\t' || c == '\n' || c == '\r' || c == '\x0b' || c == '\x0c'

/-- Abstract interface to the Unicode primitives used by the source:
per-character `str.casefold`, the `unicodedata.combining` test used by
`TRANSLATION_TABLE`, the NFKD-based `remove_accents` used on catalog terms,
and per-character `str.isalnum`. -/
structure UnicodeLib where
  casefold : Char → List Char
  combining : Char → Bool
  removeAccents : List Char → List Char
  alnum : Char → Bool

/-- ASCII case folding: uppercase letters map to lowercase, all else fixed. -/
def asciiCasefold (c : Char) : List Char :=
  if 'A' ≤ c ∧ c ≤ 'Z' then [Char.ofNat (c.toNat + 32)] else [c]

/-- Concrete ASCII instantiation of the Unicode primitives, used to evaluate
the embedding at concrete inputs. -/
def asciiLib : UnicodeLib where
  casefold := asciiCasefold
  combining := fun _ => false
  removeAccents := fun s => s.flatMap asciiCasefold
  alnum := Char.isAlphanum

/-- Identity instantiation of the Unicode primitives (no case folding, no
combining marks, ASCII alphanumerics): a second concrete instance used when
a theorem's hypotheses constrain the case-folding primitive. -/
def idLib : UnicodeLib where
  casefold := fun c => [c]
  combining := fun _ => false
  removeAccents := fun s => s
  alnum := Char.isAlphanum

/-- `TRANSLATION_TABLE` applied to one character: characters at or above
U+0080 that are combining marks are deleted, all others are kept. -/
def translateTab (U : UnicodeLib) (c : Char) : List Char :=
  if 0x80 ≤ c.toNat ∧ U.combining c then [] else [c]

/-- `remove_accents_fast(text) = text.casefold().translate(TRANSLATION_TABLE)`:
per-character case folding followed by the combining-mark deletion table. -/
def remove_accents_fast (U : UnicodeLib) (s : List Char) : List Char :=
  (s.flatMap U.casefold).flatMap (translateTab U)

/-- The whole per-character normalization pipeline a request applies to its
trimmed name before matching: punctuation stripping, case folding, and the
combining-mark deletion table, fused into one character-to-string map (so
that `normalized (strip_punct s)` is its `flatMap`). -/
def normPunctChar (U : UnicodeLib) (c : Char) : List Char :=
  ((if !(c == '.' || c == ',' || c == '-') then [c] else []).flatMap
    U.casefold).flatMap (translateTab U)

/-- `normalized(text)`: caseless Unicode normalization (the fast variant). -/
def normalized (U : UnicodeLib) (s : List Char) : List Char :=
  remove_accents_fast U s

/-- `strip_punct(t) = t.replace(".", "").replace(",", "").replace("-", "")`. -/
def strip_punct (s : List Char) : List Char :=
  s.filter (fun c => !(c == '.' || c == ',' || c == '-'))

/-- `strip_tail(name)`: pop trailing characters that are neither alphanumeric
nor a dot (the Python while-loop removing `name[-1]`). -/
def strip_tail (U : UnicodeLib) (s : List Char) : List Char :=
  (s.reverse.dropWhile (fun c => !U.alnum c && !(c == '.'))).reverse

/-- Worker for `str.split()`: `acc` is the reversed current token. -/
def splitWsGo : List Char → List Char → List (List Char)
  | [], acc => if acc.isEmpty then [] else [acc.reverse]
  | c :: rest, acc =>
    if isSpacePy c then
      if acc.isEmpty then splitWsGo rest [] else acc.reverse :: splitWsGo rest []
    else
      splitWsGo rest (c :: acc)

/-- Python `str.split()`: split on runs of whitespace, dropping empty pieces. -/
def splitWs (s : List Char) : List (List Char) :=
  splitWsGo s []

/-- Python `" ".join(parts)`. -/
def joinSpace (parts : List (List Char)) : List Char :=
  List.intercalate [' '] parts

/-- `normalize_terms`: `strip_punct(remove_accents(t))` for each term. -/
def normalize_terms (U : UnicodeLib) (terms : List (List Char)) : List (List Char) :=
  terms.map (fun t => strip_punct (U.removeAccents t))

/-- Python's lexicographic strict comparison of sequences, over a strict
comparison of the elements. -/
def lexLtBy (lt : α → α → Bool) [DecidableEq α] : List α → List α → Bool
  | [], [] => false
  | [], _ :: _ => true
  | _ :: _, [] => false
  | a :: as_, b :: bs => lt a b || (a == b && lexLtBy lt as_ bs)

/-- Python character comparison (by code point, as in `ord`). -/
def charLtB (a b : Char) : Bool :=
  decide (a.toNat < b.toNat)

/-- Python string comparison `a < b` (lexicographic by code point). -/
def strLt : List Char → List Char → Bool :=
  lexLtBy charLtB

/-- Python list-of-strings comparison `a < b` (lexicographic, elements
compared as strings). -/
def strListLt : List (List Char) → List (List Char) → Bool :=
  lexLtBy strLt

/-- The sort key of `prepare_default_terms`, `(-len(x), x)`, as a
less-or-equal test on token lists: the negation of the strict tuple
comparison the other way around. -/
def termKeyLe (a b : List (List Char)) : Bool :=
  !(b.length > a.length || (b.length == a.length && strListLt b a))

/-- The strict "outranks" relation on token sequences induced by the sort
key `(-len(x), x)`: `x` comes strictly before `y` when `x` has more tokens,
or the token counts are equal and `x` is lexicographically earlier. -/
def keyBefore (x y : List (List Char)) : Prop :=
  y.length < x.length ∨ (x.length = y.length ∧ strListLt x y = true)

/-- Insert into a sorted list (the inner step of a sort). -/
def insertSorted (le : α → α → Bool) (a : α) : List α → List α
  | [] => [a]
  | b :: bs => if le a b then a :: b :: bs else b :: insertSorted le a bs

/-- Sorting by a less-or-equal test; used to model both Python's `sorted`
(in `prepare_default_terms`) and the ascending order in which `heapq` pops
the match heap. -/
def sortBy (le : α → α → Bool) : List α → List α
  | [] => []
  | a :: as_ => insertSorted le a (sortBy le as_)

/-- `prepare_default_terms` applied to raw terms: deduplicate, normalize,
split each term into tokens, sort by `(-len(x), x)`, and pair each token
sequence with its length.  The raw term set (`get_unique_terms`, whose data
files are external) is a parameter. -/
def prepare_default_terms (U : UnicodeLib) (raw : List (List Char)) :
    List (Nat × List (List Char)) :=
  let terms := raw.dedup
  let nterms := normalize_terms U terms
  let ntermparts := nterms.map splitWs
  let sntermparts := sortBy termKeyLe ntermparts
  sntermparts.map (fun tp => (tp.length, tp))

/-- Keep, for each word, only the entry of its last `add_word` call (the
pyahocorasick trie stores one value per word, later calls overwrite). -/
def keepLastByWord : List (Nat × List Char) → List (Nat × List Char)
  | [] => []
  | (i, w) :: rest =>
    if rest.any (fun p => p.2 == w) then keepLastByWord rest
    else (i, w) :: keepLastByWord rest

/-- `build_automaton(terms)`: for each `(idx, (_, termparts))` in
`enumerate(terms)`, add the word `" ".join(termparts)` with value
`(idx, word)`.  The automaton is modelled by its word/value association. -/
def build_automaton (terms : List (Nat × List (List Char))) : List (Nat × List Char) :=
  keepLastByWord (terms.enum.map (fun it => (it.1, joinSpace it.2.2)))

/-- Does word `w` occur in `s` ending (inclusively) at index `e`?  Empty
words are never stored by the automaton. -/
def occursEndingAt (w s : List Char) (e : Nat) : Bool :=
  !w.isEmpty && e < s.length && w.length ≤ e + 1 &&
    (s.drop (e + 1 - w.length)).take w.length == w

/-- `automaton.iter(nname)`: every occurrence of every stored word, as
`(end_idx, (priority_idx, match))`, scanned by end position. -/
def automaton_iter (words : List (Nat × List Char)) (s : List Char) :
    List (Nat × Nat × List Char) :=
  (List.range s.length).flatMap (fun e =>
    words.filterMap (fun iw =>
      if occursEndingAt iw.2 s e then some (e, iw.1, iw.2) else none))

/-- Character of `nname` at a clamped index (the source only ever indexes
with `max 0 (start_idx - 1)` and `min (len - 1) (end_idx + 1)`, which are in
range whenever a match exists; the default is never read then). -/
def charAt (s : List Char) (i : Nat) : Char :=
  s.getD i ' '

/-- The acceptance test of `custom_basename` for a candidate occurrence:
`cond_1` (left boundary) and `cond_2` (right boundary refined by the
`prefix`/`middle`/`suffix` flags).  Nat subtraction `start_idx - 1` models
Python's `max(0, start_idx - 1)`. -/
def boundary_filter (U : UnicodeLib) (nname : List Char)
    (sfx pfx mid : Bool) (start_idx end_idx : Nat) : Bool :=
  let cond_1 := !(U.alnum (charAt nname (start_idx - 1))) || (start_idx == 0)
  let cond_2 := (end_idx == nname.length - 1) ||
    !(U.alnum (charAt nname (min (nname.length - 1) (end_idx + 1))))
  let cond_2 :=
    if mid then
      let c2 := if !pfx then cond_2 && !(start_idx == 0) else cond_2
      if !sfx then c2 && !(end_idx == nname.length - 1) else c2
    else
      cond_2 && (((start_idx == 0) && pfx) || ((end_idx == nname.length - 1) && sfx))
  cond_1 && cond_2

/-- The accepted matches of one request, as `(priority_idx, start_idx,
end_idx, match)` in the order the automaton reports them. -/
def accepted_matches (U : UnicodeLib) (words : List (Nat × List Char))
    (nname : List Char) (sfx pfx mid : Bool) : List (Nat × Nat × Nat × List Char) :=
  (automaton_iter words nname).filterMap (fun m =>
    if boundary_filter U nname sfx pfx mid (m.1 + 1 - m.2.2.length) m.1 then
      some (m.2.1, m.1 + 1 - m.2.2.length, m.1, m.2.2)
    else none)

/-- Ordering in which the heap pops accepted matches: ascending by the
Python tuple `(priority_idx, (start_idx, end_idx, match))`. -/
def matchLe (a b : Nat × Nat × Nat × List Char) : Bool :=
  a.1 < b.1 || (a.1 == b.1 &&
    (a.2.1 < b.2.1 || (a.2.1 == b.2.1 &&
      (a.2.2.1 < b.2.2.1 || (a.2.2.1 == b.2.2.1 && !(strLt b.2.2.2 a.2.2.2))))))

/-- The per-character overwrite `"." if x != " " else x`. -/
def markChar (x : Char) : Char :=
  if x != ' ' then '.' else x

/-- One heap pop applied to the working buffer:
`char_array[start:end+1] = "".join("." if x != " " else x for x in match)`. -/
def mark_span (buf : List Char) (start_idx : Nat) (w : List Char) : List Char :=
  buf.take start_idx ++ w.map markChar ++ buf.drop (start_idx + w.length)

/-- All heap pops in order, each overwriting its span. -/
def apply_matches (buf : List Char) (ms : List (Nat × Nat × Nat × List Char)) :
    List Char :=
  ms.foldl (fun b m => mark_span b m.2.1 m.2.2.2) buf

/-- Python `list.insert(idx, a)` (clamping `idx` into range). -/
def pyInsert (l : List α) (i : Nat) (a : α) : List α :=
  l.take i ++ a :: l.drop i

/-- The final loop: keep `nparts[idx]` for each marked token `x` with
`len(x.replace(".", "")) != 0`.  Python's indexing raises `IndexError` out
of range, modelled by `none`. -/
def finalToks (nparts : List (List Char)) : List (List Char) → Nat →
    Option (List (List Char))
  | [], _ => some []
  | x :: rest, idx =>
    if !(x.filter (fun c => !(c == '.'))).isEmpty then
      match nparts.get? idx with
      | none => none
      | some orig => (finalToks nparts rest (idx + 1)).map (fun l => orig :: l)
    else
      finalToks nparts rest (idx + 1)

/-- The automaton a call actually matches with: the cached one if the
global is set, otherwise the one built from this call's `terms`. -/
def autoOf (st : Option (List (Nat × List Char)))
    (terms : List (Nat × List (List Char))) : List (Nat × List Char) :=
  match st with
  | none => build_automaton terms
  | some a => a

/-- The normalized text of one request: `normalized(strip_punct(name))`
applied to the trailing-trimmed name. -/
def nnameOf (U : UnicodeLib) (name' : List Char) : List Char :=
  normalized U (strip_punct name')

/-- `non_alphanum_toks`: the `(idx, tok)` pairs of trimmed-name tokens whose
punctuation-stripped form is empty. -/
def punctToks (name' : List Char) : List (Nat × List Char) :=
  (splitWs name').enum.filter (fun it => (strip_punct it.2).isEmpty)

/-- The marked working buffer: every accepted match popped from the heap in
ascending key order and overwritten onto the normalized text. -/
def markedOf (U : UnicodeLib) (auto : List (Nat × List Char)) (name' : List Char)
    (sfx pfx mid : Bool) : List Char :=
  apply_matches (nnameOf U name')
    (sortBy matchLe (accepted_matches U auto (nnameOf U name') sfx pfx mid))

/-- The token list fed to the final loop: the marked buffer split on
whitespace, with the punctuation-only tokens reinserted at their original
indices. -/
def tokensOf (U : UnicodeLib) (auto : List (Nat × List Char)) (name' : List Char)
    (sfx pfx mid : Bool) : List (List Char) :=
  (punctToks name').foldl (fun ts it => pyInsert ts it.1 it.2)
    (splitWs (markedOf U auto name' sfx pfx mid))

/-- `custom_basename(name, terms, suffix, prefix, middle)` with the
process-global automaton cache passed explicitly: returns the result (or
`none` for an `IndexError`) together with the updated cache. -/
def custom_basename (U : UnicodeLib) (st : Option (List (Nat × List Char)))
    (name : List Char) (terms : List (Nat × List (List Char)))
    (sfx pfx mid : Bool) :
    Option (List Char) × Option (List (Nat × List Char)) :=
  if (accepted_matches U (autoOf st terms) (nnameOf U (strip_tail U name))
      sfx pfx mid).isEmpty then
    (some (strip_tail U name), some (autoOf st terms))
  else
    match finalToks (splitWs (strip_tail U name))
        (tokensOf U (autoOf st terms) (strip_tail U name) sfx pfx mid) 0 with
    | none => (none, some (autoOf st terms))
    | some final => (some (strip_tail U (joinSpace final)), some (autoOf st terms))

/-- One call in a fresh process (empty cache); the result component. -/
def cleanPure (U : UnicodeLib) (terms : List (Nat × List (List Char)))
    (name : List Char) (sfx pfx mid : Bool) : Option (List Char) :=
  (custom_basename U none name terms sfx pfx mid).1

/-- Characters of a string literal, for concrete instances. -/
def chars (s : String) : List Char :=
  s.toList

/-- Acceptance rule stated by the spec for the middle-disabled case (claim
C1): left_ok AND ((start_char == 0 and prefix enabled) or (end_char ==
len-1 and suffix enabled)), with no further requirement on the character
following end_char. -/
def spec_accept_no_middle (U : UnicodeLib) (nname : List Char)
    (sfx pfx : Bool) (start_idx end_idx : Nat) : Bool :=
  ((start_idx == 0) || !(U.alnum (charAt nname (start_idx - 1)))) &&
    (((start_idx == 0) && pfx) || ((end_idx == nname.length - 1) && sfx))

/-- Is position `p` inside the span `[start_char, end_char]` of some match
of `ms`? -/
def covered (ms : List (Nat × Nat × Nat × List Char)) (p : Nat) : Bool :=
  ms.any (fun m => m.2.1 ≤ p && p ≤ m.2.2.1)

/-- The buffer described by the spec for the overlap-resolution step: the
union of all accepted spans converted to the period marker (spaces left
unchanged), every other position untouched. -/
def unionMark (nname : List Char) (ms : List (Nat × Nat × Nat × List Char)) :
    List Char :=
  (List.range nname.length).map (fun p =>
    if covered ms p then markChar (charAt nname p) else charAt nname p)

/-- A well-formed occurrence `(priority, start, end, match)` on `nname`:
nonempty match text equal to the text of its span, with
`end + 1 = start + len`. -/
def ValidOcc (nname : List Char) (m : Nat × Nat × Nat × List Char) : Prop :=
  m.2.2.2 ≠ [] ∧ m.2.1 + m.2.2.2.length ≤ nname.length ∧
    m.2.2.1 + 1 = m.2.1 + m.2.2.2.length ∧
    (nname.drop m.2.1).take m.2.2.2.length = m.2.2.2

instance (nname : List Char) (m : Nat × Nat × Nat × List Char) :
    Decidable (ValidOcc nname m) := by
  unfold ValidOcc
  infer_instance

/-! ### Order and sorting lemmas -/

theorem insertSorted_perm (le : α → α → Bool) (a : α) (l : List α) :
    (insertSorted le a l).Perm (a :: l) := by
  induction l with
  | nil => exact List.Perm.refl _
  | cons b bs ih =>
    simp only [insertSorted]
    split
    · exact List.Perm.refl _
    · exact (ih.cons b).trans (List.Perm.swap a b bs)

theorem sortBy_perm (le : α → α → Bool) (l : List α) : (sortBy le l).Perm l := by
  induction l with
  | nil => exact List.Perm.refl _
  | cons a as_ ih => exact (insertSorted_perm le a _).trans (ih.cons a)

theorem pairwise_insertSorted (le : α → α → Bool)
    (htot : ∀ a b, (le a b || le b a) = true)
    (htrans : ∀ a b c, le a b = true → le b c = true → le a c = true)
    (a : α) (l : List α) (hl : l.Pairwise (fun x y => le x y = true)) :
    (insertSorted le a l).Pairwise (fun x y => le x y = true) := by
  induction l with
  | nil => simp [insertSorted]
  | cons b bs ih =>
    cases hl with
    | cons hb hbs =>
      simp only [insertSorted]
      split
      case isTrue h =>
        refine List.Pairwise.cons ?_ (List.Pairwise.cons hb hbs)
        intro y hy
        rcases List.mem_cons.1 hy with rfl | hy
        · exact h
        · exact htrans a b y h (hb y hy)
      case isFalse h =>
        have hba : le b a = true := by
          have := htot a b
          rcases Bool.or_eq_true_iff.1 this with h' | h'
          · exact absurd h' h
          · exact h'
        refine List.Pairwise.cons ?_ (ih hbs)
        intro y hy
        have : y ∈ a :: bs := (insertSorted_perm le a bs).mem_iff.1 hy
        rcases List.mem_cons.1 this with rfl | hy'
        · exact hba
        · exact hb y hy'

theorem pairwise_sortBy (le : α → α → Bool)
    (htot : ∀ a b, (le a b || le b a) = true)
    (htrans : ∀ a b c, le a b = true → le b c = true → le a c = true)
    (l : List α) : (sortBy le l).Pairwise (fun x y => le x y = true) := by
  induction l with
  | nil => exact List.Pairwise.nil
  | cons a as_ ih => exact pairwise_insertSorted le htot htrans a _ ih

theorem lexLtBy_irrefl {lt : α → α → Bool} [DecidableEq α]
    (hirr : ∀ a, lt a a = false) : ∀ l, lexLtBy lt l l = false := by
  intro l
  induction l with
  | nil => rfl
  | cons a as_ ih => simp [lexLtBy, hirr, ih]

theorem lexLtBy_trans {lt : α → α → Bool} [DecidableEq α]
    (htr : ∀ a b c, lt a b = true → lt b c = true → lt a c = true) :
    ∀ l1 l2 l3, lexLtBy lt l1 l2 = true → lexLtBy lt l2 l3 = true →
      lexLtBy lt l1 l3 = true := by
  intro l1
  induction l1 with
  | nil =>
    intro l2 l3 h12 h23
    cases l2 with
    | nil => exact absurd h12 (by simp [lexLtBy])
    | cons b bs =>
      cases l3 with
      | nil => exact absurd h23 (by simp [lexLtBy])
      | cons c cs => rfl
  | cons a as_ ih =>
    intro l2 l3 h12 h23
    cases l2 with
    | nil => exact absurd h12 (by simp [lexLtBy])
    | cons b bs =>
      cases l3 with
      | nil => exact absurd h23 (by simp [lexLtBy])
      | cons c cs =>
        simp only [lexLtBy, Bool.or_eq_true, Bool.and_eq_true, beq_iff_eq] at h12 h23 ⊢
        rcases h12 with h12 | ⟨rfl, h12⟩
        · rcases h23 with h23 | ⟨rfl, h23⟩
          · exact Or.inl (htr _ _ _ h12 h23)
          · exact Or.inl h12
        · rcases h23 with h23 | ⟨rfl, h23⟩
          · exact Or.inl h23
          · exact Or.inr ⟨rfl, ih _ _ h12 h23⟩

theorem lexLtBy_trichot {lt : α → α → Bool} [DecidableEq α]
    (htri : ∀ a b, lt a b = true ∨ a = b ∨ lt b a = true) :
    ∀ l1 l2, lexLtBy lt l1 l2 = true ∨ l1 = l2 ∨ lexLtBy lt l2 l1 = true := by
  intro l1
  induction l1 with
  | nil =>
    intro l2
    cases l2 with
    | nil => exact Or.inr (Or.inl rfl)
    | cons b bs => exact Or.inl rfl
  | cons a as_ ih =>
    intro l2
    cases l2 with
    | nil => exact Or.inr (Or.inr rfl)
    | cons b bs =>
      rcases htri a b with h | rfl | h
      · exact Or.inl (by simp [lexLtBy, h])
      · rcases ih bs with h' | rfl | h'
        · exact Or.inl (by simp [lexLtBy, h'])
        · exact Or.inr (Or.inl rfl)
        · exact Or.inr (Or.inr (by simp [lexLtBy, h']))
      · exact Or.inr (Or.inr (by simp [lexLtBy, h]))

theorem charLtB_irrefl (a : Char) : charLtB a a = false := by
  simp [charLtB]

theorem charLtB_trans (a b c : Char) (h1 : charLtB a b = true)
    (h2 : charLtB b c = true) : charLtB a c = true := by
  simp only [charLtB, decide_eq_true_eq] at h1 h2 ⊢
  exact Nat.lt_trans h1 h2

theorem charLtB_trichot (a b : Char) :
    charLtB a b = true ∨ a = b ∨ charLtB b a = true := by
  simp only [charLtB, decide_eq_true_eq]
  rcases Nat.lt_trichotomy a.toNat b.toNat with h | h | h
  · exact Or.inl h
  · exact Or.inr (Or.inl (Char.ext (UInt32.ext h)))
  · exact Or.inr (Or.inr h)

theorem strLt_irrefl (a : List Char) : strLt a a = false :=
  lexLtBy_irrefl charLtB_irrefl a

theorem strLt_trans (a b c : List Char) (h1 : strLt a b = true)
    (h2 : strLt b c = true) : strLt a c = true :=
  lexLtBy_trans charLtB_trans a b c h1 h2

theorem strLt_trichot (a b : List Char) :
    strLt a b = true ∨ a = b ∨ strLt b a = true :=
  lexLtBy_trichot charLtB_trichot a b

theorem strListLt_irrefl (a : List (List Char)) : strListLt a a = false :=
  lexLtBy_irrefl strLt_irrefl a

theorem strListLt_trans (a b c : List (List Char)) (h1 : strListLt a b = true)
    (h2 : strListLt b c = true) : strListLt a c = true :=
  lexLtBy_trans strLt_trans a b c h1 h2

theorem strListLt_trichot (a b : List (List Char)) :
    strListLt a b = true ∨ a = b ∨ strListLt b a = true :=
  lexLtBy_trichot strLt_trichot a b

theorem termKeyLe_true_iff (a b : List (List Char)) :
    termKeyLe a b = true ↔ ¬keyBefore b a := by
  simp only [termKeyLe, keyBefore, Bool.not_eq_true', Bool.or_eq_false_iff,
    Bool.and_eq_false_iff, decide_eq_false_iff_not, gt_iff_lt, not_or, not_and,
    beq_eq_false_iff_ne, ne_eq, Bool.not_eq_true]
  constructor
  · rintro ⟨h1, h2⟩
    refine ⟨h1, fun hlen => ?_⟩
    rcases h2 with h2 | h2
    · exact absurd hlen h2
    · simp [h2]
  · rintro ⟨h1, h2⟩
    refine ⟨h1, ?_⟩
    by_cases hlen : b.length = a.length
    · exact Or.inr (h2 hlen)
    · exact Or.inl hlen

theorem keyBefore_irrefl (a : List (List Char)) : ¬keyBefore a a := by
  rintro (h | ⟨-, h⟩)
  · exact Nat.lt_irrefl _ h
  · simp [strListLt_irrefl] at h

theorem keyBefore_trans {a b c : List (List Char)}
    (h1 : keyBefore a b) (h2 : keyBefore b c) : keyBefore a c := by
  rcases h1 with h1 | ⟨e1, l1⟩
  · rcases h2 with h2 | ⟨e2, l2⟩
    · exact Or.inl (Nat.lt_trans h2 h1)
    · exact Or.inl (e2 ▸ h1)
  · rcases h2 with h2 | ⟨e2, l2⟩
    · exact Or.inl (e1 ▸ h2)
    · exact Or.inr ⟨e1.trans e2, strListLt_trans _ _ _ l1 l2⟩

theorem keyBefore_trichot (a b : List (List Char)) :
    keyBefore a b ∨ a = b ∨ keyBefore b a := by
  rcases Nat.lt_trichotomy a.length b.length with h | h | h
  · exact Or.inr (Or.inr (Or.inl h))
  · rcases strListLt_trichot a b with h' | rfl | h'
    · exact Or.inl (Or.inr ⟨h, h'⟩)
    · exact Or.inr (Or.inl rfl)
    · exact Or.inr (Or.inr (Or.inr ⟨h.symm, h'⟩))
  · exact Or.inl (Or.inl h)

theorem termKeyLe_total (a b : List (List Char)) :
    (termKeyLe a b || termKeyLe b a) = true := by
  rw [Bool.or_eq_true, termKeyLe_true_iff, termKeyLe_true_iff]
  by_contra h
  push_neg at h
  rcases h with ⟨h1, h2⟩
  exact keyBefore_irrefl a (keyBefore_trans h2 h1)

theorem termKeyLe_trans (a b c : List (List Char))
    (h1 : termKeyLe a b = true) (h2 : termKeyLe b c = true) :
    termKeyLe a c = true := by
  rw [termKeyLe_true_iff] at h1 h2 ⊢
  intro hca
  rcases keyBefore_trichot a b with h | rfl | h
  · exact h2 (keyBefore_trans hca h)
  · exact h2 hca
  · exact h1 h

/-! ### Pipeline helper lemmas -/

theorem custom_basename_no_match {U : UnicodeLib} {st name terms sfx pfx mid}
    (h : accepted_matches U (autoOf st terms) (nnameOf U (strip_tail U name))
      sfx pfx mid = []) :
    custom_basename U st name terms sfx pfx mid =
      (some (strip_tail U name), some (autoOf st terms)) := by
  unfold custom_basename
  rw [h]
  rfl

theorem custom_basename_state (U : UnicodeLib) (st name terms sfx pfx mid) :
    (custom_basename U st name terms sfx pfx mid).2 = some (autoOf st terms) := by
  unfold custom_basename
  split
  · rfl
  · split <;> rfl

theorem boundary_filter_all_false (U : UnicodeLib) (nname : List Char)
    (s e : Nat) : boundary_filter U nname false false false s e = false := by
  simp [boundary_filter]

theorem accepted_matches_all_false (U : UnicodeLib)
    (words : List (Nat × List Char)) (nname : List Char) :
    accepted_matches U words nname false false false = [] := by
  simp [accepted_matches, List.filterMap_eq_nil_iff, boundary_filter_all_false]

/-! ### Claims -/

/-- C8: with all three flags false, the boundary filter accepts no matches,
and `custom_basename` returns the trailing-trimmed input (totally, for every
input and every cache state). -/
theorem c8_all_false_flags_match_nothing (U : UnicodeLib) (st name terms) :
    accepted_matches U (autoOf st terms) (nnameOf U (strip_tail U name))
        false false false = [] ∧
      (custom_basename U st name terms false false false).1 =
        some (strip_tail U name) := by
  refine ⟨accepted_matches_all_false U _ _, ?_⟩
  rw [custom_basename_no_match (accepted_matches_all_false U _ _)]

/-- C7: when the boundary filter accepts zero matches for the request,
`custom_basename` short-circuits and returns the input after only the
initial trailing-punctuation trim. -/
theorem c7_no_match_passthrough (U : UnicodeLib) (st name terms sfx pfx mid)
    (h : accepted_matches U (autoOf st terms) (nnameOf U (strip_tail U name))
      sfx pfx mid = []) :
    (custom_basename U st name terms sfx pfx mid).1 = some (strip_tail U name) := by
  rw [custom_basename_no_match h]

/-- Witness for C7: a name containing no cataloged term is passed through
with only the trailing trim. -/
theorem c7_no_match_passthrough_witness :
    (custom_basename asciiLib none (chars "Some Random Name.")
        [(1, [chars "ltd"])] true false false).1 =
      some (strip_tail asciiLib (chars "Some Random Name.")) :=
  c7_no_match_passthrough asciiLib none (chars "Some Random Name.")
    [(1, [chars "ltd"])] true false false (by decide)

/-- C6: the automaton is built at most once per process.  A call with an
empty cache stores the automaton built from its own `terms`; a call with a
populated cache leaves the cache unchanged and behaves identically no
matter which `terms` argument it receives. -/
theorem c6_automaton_built_once (U : UnicodeLib) (name terms terms' sfx pfx mid)
    (a : List (Nat × List Char)) :
    (custom_basename U none name terms sfx pfx mid).2 =
        some (build_automaton terms) ∧
      (custom_basename U (some a) name terms sfx pfx mid).2 = some a ∧
      custom_basename U (some a) name terms sfx pfx mid =
        custom_basename U (some a) name terms' sfx pfx mid :=
  ⟨custom_basename_state U none name terms sfx pfx mid,
   custom_basename_state U (some a) name terms sfx pfx mid, rfl⟩

/-- C5 counterexample: cleaning against an empty term catalog does NOT
always return the trimmed input on every call.  After a first call whose
terms contain "ltd", a second call passing an empty catalog still matches
with the cached automaton and removes "Ltd". -/
theorem c5_counterexample :
    (custom_basename asciiLib
        (custom_basename asciiLib none (chars "Acme Ltd") [(1, [chars "ltd"])]
          true false false).2
        (chars "Xyz Ltd") [] true false false).1 ≠
      some (strip_tail asciiLib (chars "Xyz Ltd")) ∧
    (custom_basename asciiLib
        (custom_basename asciiLib none (chars "Acme Ltd") [(1, [chars "ltd"])]
          true false false).2
        (chars "Xyz Ltd") [] true false false).1 = some (chars "Xyz") := by
  constructor
  · decide
  · decide

/-- C5 amended: cleaning returns the trailing-trimmed input unchanged
whenever the effective catalog of the call is empty — i.e. the cached
automaton holds no words, which on a first call (empty cache) means the
call's own terms argument is empty.  After a first call with a non-empty
catalog, a later call's empty terms argument is ignored. -/
theorem c5_empty_catalog_passthrough (U : UnicodeLib) (st name terms sfx pfx mid)
    (h : autoOf st terms = []) :
    (custom_basename U st name terms sfx pfx mid).1 = some (strip_tail U name) := by
  have hmatches : accepted_matches U (autoOf st terms)
      (nnameOf U (strip_tail U name)) sfx pfx mid = [] := by
    rw [h]
    simp [accepted_matches, automaton_iter, List.filterMap_eq_nil_iff]
  rw [custom_basename_no_match hmatches]

/-- Witness for the amended C5: a first call with an empty catalog returns
the trimmed input. -/
theorem c5_empty_catalog_passthrough_witness :
    (custom_basename asciiLib none (chars "Acme Ltd") [] true false false).1 =
      some (strip_tail asciiLib (chars "Acme Ltd")) :=
  c5_empty_catalog_passthrough asciiLib none (chars "Acme Ltd") [] true false
    false (by decide)

/-- C1 counterexample: with middle disabled, acceptance is NOT equivalent to
left_ok AND the start/end anchoring — the code additionally requires the
character after end_char to be non-alphanumeric.  For the candidate "a b"
ending at index 2 of "a bc" (anchored at position 0 with prefix enabled),
the spec's rule accepts but the code rejects. -/
theorem c1_counterexample :
    (2, 0, chars "a b") ∈ automaton_iter [(0, chars "a b")] (chars "a bc") ∧
      spec_accept_no_middle asciiLib (chars "a bc") true true 0 2 = true ∧
      boundary_filter asciiLib (chars "a bc") true true false 0 2 = false := by
  refine ⟨by decide, by decide, by decide⟩

/-- C1 amended: when middle is disabled, a candidate is accepted iff
left_ok holds AND the right word boundary holds (end_char is the last index
or the following character is non-alphanumeric) AND the candidate is
anchored at the start with prefix enabled or at the end with suffix
enabled. -/
theorem c1_no_middle_filter_characterization (U : UnicodeLib)
    (nname : List Char) (sfx pfx : Bool) (s e : Nat) :
    boundary_filter U nname sfx pfx false s e = true ↔
      ((s = 0 ∨ U.alnum (charAt nname (s - 1)) = false) ∧
        (e = nname.length - 1 ∨
          U.alnum (charAt nname (min (nname.length - 1) (e + 1))) = false) ∧
        ((s = 0 ∧ pfx = true) ∨ (e = nname.length - 1 ∧ sfx = true))) := by
  simp only [boundary_filter, Bool.false_eq_true, if_false, Bool.and_eq_true,
    Bool.or_eq_true, Bool.not_eq_true', beq_iff_eq]
  tauto

theorem dropWhile_idem (p : α → Bool) (l : List α) :
    List.dropWhile p (List.dropWhile p l) = List.dropWhile p l := by
  induction l with
  | nil => rfl
  | cons a t ih =>
    by_cases h : p a
    · simp [List.dropWhile_cons, h, ih]
    · simp [List.dropWhile_cons, h]

theorem strip_tail_idem (U : UnicodeLib) (s : List Char) :
    strip_tail U (strip_tail U s) = strip_tail U s := by
  unfold strip_tail
  rw [List.reverse_reverse, dropWhile_idem]

theorem strip_tail_of_result {U : UnicodeLib} {st name terms sfx pfx mid y}
    (h : (custom_basename U st name terms sfx pfx mid).1 = some y) :
    strip_tail U y = y := by
  unfold custom_basename at h
  split at h
  · rw [Option.some.injEq] at h
    rw [← h, strip_tail_idem]
  · split at h
    · exact absurd h (by simp)
    · rw [Option.some.injEq] at h
      rw [← h, strip_tail_idem]

/-- C2 counterexample: cleaning is not idempotent.  With terms "inc" and
"ltd" and suffix-only flags, one pass over "Acme Inc Ltd" yields
"Acme Inc", but a second pass removes the newly exposed suffix and yields
"Acme". -/
theorem c2_counterexample :
    cleanPure asciiLib [(1, [chars "inc"]), (1, [chars "ltd"])]
        (chars "Acme Inc Ltd") true false false = some (chars "Acme Inc") ∧
      cleanPure asciiLib [(1, [chars "inc"]), (1, [chars "ltd"])]
        (chars "Acme Inc") true false false = some (chars "Acme") ∧
      chars "Acme" ≠ chars "Acme Inc" := by
  exact ⟨by decide, by decide, by decide⟩

/-- C2 amended: cleaning is idempotent exactly when no removable term
remains after the first pass — if the second request (against the cache the
first call left behind) accepts zero matches on the first pass's output,
the second application returns that output unchanged. -/
theorem c2_idempotent_without_residual_match (U : UnicodeLib)
    (st name terms sfx pfx mid y)
    (h1 : (custom_basename U st name terms sfx pfx mid).1 = some y)
    (h2 : accepted_matches U
        (autoOf (custom_basename U st name terms sfx pfx mid).2 terms)
        (nnameOf U (strip_tail U y)) sfx pfx mid = []) :
    (custom_basename U (custom_basename U st name terms sfx pfx mid).2 y terms
        sfx pfx mid).1 = some y := by
  rw [custom_basename_no_match h2, strip_tail_of_result h1]

/-- Witness for the amended C2: "Acme Ltd" cleans to "Acme" and a second
pass leaves "Acme" unchanged. -/
theorem c2_idempotent_without_residual_match_witness :
    (custom_basename asciiLib
        (custom_basename asciiLib none (chars "Acme Ltd") [(1, [chars "ltd"])]
          true false false).2
        (chars "Acme") [(1, [chars "ltd"])] true false false).1 =
      some (chars "Acme") :=
  c2_idempotent_without_residual_match asciiLib none (chars "Acme Ltd")
    [(1, [chars "ltd"])] true false false (chars "Acme") (by decide) (by decide)

/-! ### Overlap resolution (C4) -/

theorem mark_span_length {buf : List Char} {s : Nat} {w : List Char}
    (h : s + w.length ≤ buf.length) :
    (mark_span buf s w).length = buf.length := by
  unfold mark_span
  simp only [List.length_append, List.length_take, List.length_drop,
    List.length_map]
  omega

theorem mark_span_getElem (buf : List Char) (s : Nat) (w : List Char)
    (h : s + w.length ≤ buf.length) (p : Nat) :
    (mark_span buf s w)[p]? =
      if p < s then buf[p]?
      else if p < s + w.length then (w[p - s]?).map markChar
      else buf[p]? := by
  have hs : s ≤ buf.length := le_trans (Nat.le_add_right _ _) h
  unfold mark_span
  rw [List.append_assoc, List.getElem?_append, List.length_take,
    Nat.min_eq_left hs]
  by_cases h1 : p < s
  · rw [if_pos h1, if_pos h1, List.getElem?_take_of_lt h1]
  · rw [if_neg h1, if_neg h1, List.getElem?_append, List.length_map]
    by_cases h2 : p < s + w.length
    · rw [if_pos (by omega : p - s < w.length), if_pos h2, List.getElem?_map]
    · rw [if_neg (by omega : ¬p - s < w.length), if_neg h2, List.getElem?_drop]
      congr 1
      omega

theorem apply_matches_characterization (nname : List Char) :
    ∀ (ms : List (Nat × Nat × Nat × List Char)) (buf : List Char)
      (cov : Nat → Bool),
      buf.length = nname.length →
      (∀ p, buf[p]? = if cov p then (nname[p]?).map markChar else nname[p]?) →
      (∀ m ∈ ms, ValidOcc nname m) →
      (apply_matches buf ms).length = nname.length ∧
        ∀ p, (apply_matches buf ms)[p]? =
          if cov p || covered ms p then (nname[p]?).map markChar
          else nname[p]? := by
  intro ms
  induction ms with
  | nil =>
    intro buf cov hlen hbuf _
    refine ⟨hlen, fun p => ?_⟩
    simpa [covered, apply_matches] using hbuf p
  | cons m ms ih =>
    intro buf cov hlen hbuf hvalid
    have hv := hvalid m (List.mem_cons_self m ms)
    unfold ValidOcc at hv
    obtain ⟨hw, hle, hend, hsub⟩ := hv
    have hle' : m.2.1 + m.2.2.2.length ≤ buf.length := by rw [hlen]; exact hle
    have hlen' : (mark_span buf m.2.1 m.2.2.2).length = nname.length := by
      rw [mark_span_length hle', hlen]
    have hbuf' : ∀ p, (mark_span buf m.2.1 m.2.2.2)[p]? =
        if (cov p || (decide (m.2.1 ≤ p) && decide (p ≤ m.2.2.1))) then
          (nname[p]?).map markChar else nname[p]? := by
      intro p
      rw [mark_span_getElem buf _ _ hle' p]
      by_cases h1 : p < m.2.1
      · have hc : (cov p || (decide (m.2.1 ≤ p) && decide (p ≤ m.2.2.1))) =
            cov p := by
          have : decide (m.2.1 ≤ p) = false := by
            simp only [decide_eq_false_iff_not]
            omega
          simp [this]
        rw [if_pos h1, hc]
        exact hbuf p
      · by_cases h2 : p < m.2.1 + m.2.2.2.length
        · have hc : (cov p || (decide (m.2.1 ≤ p) && decide (p ≤ m.2.2.1))) =
              true := by
            have ha : decide (m.2.1 ≤ p) = true := by
              simp only [decide_eq_true_eq]
              omega
            have hb : decide (p ≤ m.2.2.1) = true := by
              simp only [decide_eq_true_eq]
              omega
            simp [ha, hb]
          have hval : m.2.2.2[p - m.2.1]? = nname[p]? := by
            conv_lhs => rw [← hsub]
            rw [List.getElem?_take_of_lt (by omega), List.getElem?_drop]
            congr 1
            omega
          rw [if_neg h1, if_pos h2, hc, hval]
          simp
        · have hc : (cov p || (decide (m.2.1 ≤ p) && decide (p ≤ m.2.2.1))) =
              cov p := by
            have hb : decide (p ≤ m.2.2.1) = false := by
              simp only [decide_eq_false_iff_not]
              omega
            simp [hb]
          rw [if_neg h1, if_neg h2, hc]
          exact hbuf p
    have hrec := ih (mark_span buf m.2.1 m.2.2.2)
      (fun p => cov p || (decide (m.2.1 ≤ p) && decide (p ≤ m.2.2.1)))
      hlen' hbuf' (fun m' hm' => hvalid m' (List.mem_cons_of_mem _ hm'))
    have hfold : apply_matches buf (m :: ms) =
        apply_matches (mark_span buf m.2.1 m.2.2.2) ms := rfl
    refine ⟨by rw [hfold]; exact hrec.1, fun p => ?_⟩
    rw [hfold, hrec.2 p]
    have hcovered : covered (m :: ms) p =
        ((decide (m.2.1 ≤ p) && decide (p ≤ m.2.2.1)) || covered ms p) := by
      simp [covered, List.any_cons]
    rw [hcovered, Bool.or_assoc]

theorem covered_perm {ms ms' : List (Nat × Nat × Nat × List Char)}
    (h : ms.Perm ms') (p : Nat) : covered ms' p = covered ms p := by
  unfold covered
  cases hh : ms.any (fun m => decide (m.2.1 ≤ p) && decide (p ≤ m.2.2.1)) with
  | true =>
    rw [List.any_eq_true] at hh
    obtain ⟨m, hm, hq⟩ := hh
    exact List.any_eq_true.2 ⟨m, h.mem_iff.1 hm, hq⟩
  | false =>
    rw [List.any_eq_false] at hh
    exact List.any_eq_false.2 fun m hm => hh m (h.mem_iff.2 hm)

theorem unionMark_getElem (nname : List Char)
    (ms : List (Nat × Nat × Nat × List Char)) (p : Nat) :
    (unionMark nname ms)[p]? =
      if p < nname.length then
        some (if covered ms p then markChar (charAt nname p) else charAt nname p)
      else none := by
  unfold unionMark
  rw [List.getElem?_map]
  by_cases h : p < nname.length
  · rw [List.getElem?_range h, if_pos h]
    rfl
  · rw [if_neg h]
    have : (List.range nname.length)[p]? = none := by
      rw [List.getElem?_eq_none]
      simpa using Nat.le_of_not_lt h
    rw [this]
    rfl

theorem charAt_of_getElem {nname : List Char} {p : Nat} {c : Char}
    (h : nname[p]? = some c) : charAt nname p = c := by
  unfold charAt
  rw [List.getD_eq_getElem?_getD, h]
  rfl

/-- C4: for any set of well-formed accepted matches, the overlap-resolution
fold produces exactly the buffer obtained by converting the union of all
accepted spans to the period marker (spaces unchanged), and the outcome is
independent of the order in which the matches are applied. -/
theorem c4_overlap_union_order_independent (nname : List Char)
    (ms : List (Nat × Nat × Nat × List Char))
    (h : ∀ m ∈ ms, ValidOcc nname m) :
    apply_matches nname ms = unionMark nname ms ∧
      ∀ ms', ms.Perm ms' → apply_matches nname ms' = apply_matches nname ms := by
  have hbase : ∀ p : Nat, (nname : List Char)[p]? =
      if (fun _ => false : Nat → Bool) p then (nname[p]?).map markChar
      else nname[p]? := by
    intro p
    simp
  have main := apply_matches_characterization nname ms nname
    (fun _ => false) rfl hbase h
  constructor
  · apply List.ext_getElem?
    intro p
    rw [main.2 p, unionMark_getElem]
    by_cases hp : p < nname.length
    · have hc : (nname : List Char)[p]? = some nname[p] :=
        List.getElem?_eq_getElem hp
      rw [hc, if_pos hp, charAt_of_getElem hc]
      by_cases hcov : covered ms p
      · simp [hcov]
      · simp [hcov]
    · have hnone : (nname : List Char)[p]? = none := by
        rw [List.getElem?_eq_none]
        exact Nat.le_of_not_lt hp
      rw [hnone, if_neg hp]
      simp
  · intro ms' hperm
    have h' : ∀ m ∈ ms', ValidOcc nname m := fun m hm =>
      h m (hperm.mem_iff.2 hm)
    have main' := apply_matches_characterization nname ms' nname
      (fun _ => false) rfl hbase h'
    apply List.ext_getElem?
    intro p
    rw [main'.2 p, main.2 p, covered_perm hperm p]

/-- Witness for C4: two overlapping valid matches on "abc" mark the union
of their spans, in either order. -/
theorem c4_overlap_union_order_independent_witness :
    apply_matches (chars "abc")
        [(0, 0, 1, chars "ab"), (1, 1, 2, chars "bc")] =
      unionMark (chars "abc") [(0, 0, 1, chars "ab"), (1, 1, 2, chars "bc")] ∧
      ∀ ms', List.Perm [(0, 0, 1, chars "ab"), (1, 1, 2, chars "bc")] ms' →
        apply_matches (chars "abc") ms' =
          apply_matches (chars "abc")
            [(0, 0, 1, chars "ab"), (1, 1, 2, chars "bc")] :=
  c4_overlap_union_order_independent (chars "abc")
    [(0, 0, 1, chars "ab"), (1, 1, 2, chars "bc")] (by decide)

/-! ### Catalog preparation (C3) -/

theorem keepLastByWord_subset {l : List (Nat × List Char)}
    {m : Nat × List Char} (h : m ∈ keepLastByWord l) : m ∈ l := by
  induction l with
  | nil => exact absurd h (by simp [keepLastByWord])
  | cons a rest ih =>
    obtain ⟨i, w⟩ := a
    unfold keepLastByWord at h
    split at h
    · exact List.mem_cons_of_mem _ (ih h)
    · rcases List.mem_cons.1 h with rfl | h'
      · exact List.mem_cons_self _ _
      · exact List.mem_cons_of_mem _ (ih h')

theorem termKeyLe_of_not_before {a b : List (List Char)}
    (h : termKeyLe a b = true) :
    b.length < a.length ∨ (a.length = b.length ∧ strListLt b a = false) := by
  rw [termKeyLe_true_iff] at h
  unfold keyBefore at h
  push_neg at h
  rcases Nat.lt_trichotomy a.length b.length with hl | hl | hl
  · exact absurd hl (Nat.not_lt.2 h.1)
  · exact Or.inr ⟨hl, by simpa using h.2 hl.symm⟩
  · exact Or.inl hl

/-- C3: `prepare_default_terms` yields the deduplicated, normalized,
whitespace-split terms sorted so that any earlier entry outranks any later
one — strictly more tokens, or equally many tokens and lexicographically no
later — with each entry carrying its token count, and the automaton built
from it assigns each stored word the position of its term in this sorted
sequence as its priority index. -/
theorem c3_priority_order (U : UnicodeLib) (raw : List (List Char)) :
    (prepare_default_terms U raw).Pairwise
        (fun a b => b.2.length < a.2.length ∨
          (a.2.length = b.2.length ∧ strListLt b.2 a.2 = false)) ∧
      ((prepare_default_terms U raw).map Prod.snd).Perm
        (raw.dedup.map (fun t => splitWs (strip_punct (U.removeAccents t)))) ∧
      (∀ p ∈ prepare_default_terms U raw, p.1 = p.2.length) ∧
      (∀ iw ∈ build_automaton (prepare_default_terms U raw),
        ∃ tp, (prepare_default_terms U raw)[iw.1]? = some tp ∧
          iw.2 = joinSpace tp.2) := by
  refine ⟨?_, ?_, ?_, ?_⟩
  · have hsorted := pairwise_sortBy termKeyLe termKeyLe_total termKeyLe_trans
      ((normalize_terms U raw.dedup).map splitWs)
    simp only [prepare_default_terms, List.pairwise_map]
    exact hsorted.imp (fun h => termKeyLe_of_not_before h)
  · simp only [prepare_default_terms, List.map_map]
    have h1 : (List.map (Prod.snd ∘ fun tp => (tp.length, tp))
        (sortBy termKeyLe ((normalize_terms U raw.dedup).map splitWs))) =
        sortBy termKeyLe ((normalize_terms U raw.dedup).map splitWs) := by
      rw [show (Prod.snd ∘ fun tp : List (List Char) => (tp.length, tp)) =
        id from rfl, List.map_id]
    rw [h1]
    have h2 := sortBy_perm termKeyLe ((normalize_terms U raw.dedup).map splitWs)
    refine h2.trans ?_
    unfold normalize_terms
    rw [List.map_map]
    exact List.Perm.refl _
  · intro p hp
    simp only [prepare_default_terms, List.mem_map] at hp
    obtain ⟨tp, _, rfl⟩ := hp
    rfl
  · intro iw hiw
    unfold build_automaton at hiw
    have h1 := keepLastByWord_subset hiw
    rw [List.mem_map] at h1
    obtain ⟨it, hit, hgw⟩ := h1
    rw [List.mem_enum_iff_getElem?] at hit
    refine ⟨it.2, ?_, ?_⟩
    · rw [← hgw]
      exact hit
    · rw [← hgw]

/-- Witness for C3 at a concrete raw term list. -/
theorem c3_priority_order_witness :
    (prepare_default_terms asciiLib [chars "Co. Ltd", chars "ltd", chars "A.B."]).Pairwise
        (fun a b => b.2.length < a.2.length ∨
          (a.2.length = b.2.length ∧ strListLt b.2 a.2 = false)) ∧
      ((prepare_default_terms asciiLib
          [chars "Co. Ltd", chars "ltd", chars "A.B."]).map Prod.snd).Perm
        (([chars "Co. Ltd", chars "ltd", chars "A.B."] : List (List Char)).dedup.map
          (fun t => splitWs (strip_punct (asciiLib.removeAccents t)))) ∧
      (∀ p ∈ prepare_default_terms asciiLib
          [chars "Co. Ltd", chars "ltd", chars "A.B."], p.1 = p.2.length) ∧
      (∀ iw ∈ build_automaton (prepare_default_terms asciiLib
          [chars "Co. Ltd", chars "ltd", chars "A.B."]),
        ∃ tp, (prepare_default_terms asciiLib
            [chars "Co. Ltd", chars "ltd", chars "A.B."])[iw.1]? = some tp ∧
          iw.2 = joinSpace tp.2) :=
  c3_priority_order asciiLib [chars "Co. Ltd", chars "ltd", chars "A.B."]

/-! ### Reconstruction keeps only original tokens (C9) -/

theorem finalToks_sublist (nparts : List (List Char)) :
    ∀ (toks : List (List Char)) (i : Nat) (l : List (List Char)),
      finalToks nparts toks i = some l → l.Sublist (nparts.drop i) := by
  intro toks
  induction toks with
  | nil =>
    intro i l h
    unfold finalToks at h
    rw [Option.some.injEq] at h
    rw [← h]
    exact List.nil_sublist _
  | cons x rest ih =>
    intro i l h
    unfold finalToks at h
    split at h
    · cases hget : nparts.get? i with
      | none => rw [hget] at h; exact absurd h (by simp)
      | some orig =>
        rw [hget] at h
        cases hrec : finalToks nparts rest (i + 1) with
        | none => rw [hrec] at h; exact absurd h (by simp)
        | some l' =>
          rw [hrec] at h
          simp only [Option.map_some', Option.some.injEq] at h
          have hlt : i < nparts.length := by
            by_contra hge
            rw [List.get?_eq_none.2 (Nat.le_of_not_lt hge)] at hget
            exact absurd hget (by simp)
          have hdrop : nparts.drop i = nparts[i] :: nparts.drop (i + 1) :=
            List.drop_eq_getElem_cons hlt
          have horig : orig = nparts[i] := by
            have := List.get?_eq_getElem? nparts i
            rw [this, List.getElem?_eq_getElem hlt, Option.some.injEq] at hget
            exact hget.symm
          rw [← h, hdrop, horig]
          exact (ih (i + 1) l' hrec).cons₂ _
    · have hsub := ih (i + 1) l h
      refine hsub.trans ?_
      have : nparts.drop (i + 1) = (nparts.drop i).drop 1 := by
        rw [List.drop_drop]
      rw [this]
      exact List.drop_sublist _ _

/-- C9: every token retained in the output is character-for-character one
of the trailing-trimmed input's tokens, kept in their original relative
order; the reassembled string is then trailing-trimmed once more. -/
theorem c9_output_tokens_are_input_tokens (U : UnicodeLib)
    (st name terms sfx pfx mid out)
    (h : (custom_basename U st name terms sfx pfx mid).1 = some out) :
    out = strip_tail U name ∨
      ∃ kept, kept.Sublist (splitWs (strip_tail U name)) ∧
        out = strip_tail U (joinSpace kept) := by
  unfold custom_basename at h
  split at h
  · left
    rw [Option.some.injEq] at h
    exact h.symm
  · split at h
    · exact absurd h (by simp)
    · right
      rw [Option.some.injEq] at h
      rename_i final heq
      refine ⟨final, ?_, h.symm⟩
      have := finalToks_sublist (splitWs (strip_tail U name)) _ 0 final heq
      simpa using this

/-- Witness for C9: "Acme & Sons, Ltd." cleans to "Acme & Sons", whose
tokens are a subsequence of the trimmed input's tokens. -/
theorem c9_output_tokens_are_input_tokens_witness :
    chars "Acme & Sons" = strip_tail asciiLib (chars "Acme & Sons, Ltd.") ∨
      ∃ kept, kept.Sublist (splitWs (strip_tail asciiLib
          (chars "Acme & Sons, Ltd."))) ∧
        chars "Acme & Sons" = strip_tail asciiLib (joinSpace kept) :=
  c9_output_tokens_are_input_tokens asciiLib none (chars "Acme & Sons, Ltd.")
    [(1, [chars "ltd"])] true false false (chars "Acme & Sons") (by decide)

/-! ### Whitespace-splitting infrastructure (C10) -/

theorem isEmpty_reverse (l : List α) : l.reverse.isEmpty = l.isEmpty := by
  cases l with
  | nil => rfl
  | cons a t =>
    have : a :: t ≠ [] := by simp
    have h1 : (a :: t).reverse ≠ [] := by simp
    rw [List.isEmpty_eq_false_iff_exists_mem.2, List.isEmpty_eq_false_iff_exists_mem.2]
    · exact ⟨a, List.mem_cons_self _ _⟩
    · exact ⟨a, by simp⟩

theorem splitWsGo_append_nonws :
    ∀ (w t acc : List Char), (∀ c ∈ w, isSpacePy c = false) →
      splitWsGo (w ++ t) acc = splitWsGo t (w.reverse ++ acc) := by
  intro w
  induction w with
  | nil =>
    intro t acc _
    simp
  | cons c w' ih =>
    intro t acc hw
    have hc : isSpacePy c = false := hw c (List.mem_cons_self _ _)
    have hw' : ∀ d ∈ w', isSpacePy d = false := fun d hd =>
      hw d (List.mem_cons_of_mem _ hd)
    rw [List.cons_append]
    show (if isSpacePy c = true then _ else splitWsGo (w' ++ t) (c :: acc)) = _
    rw [if_neg (by simp [hc]), ih t (c :: acc) hw']
    congr 1
    simp [List.append_assoc]

theorem splitWsGo_flatMap (f : Char → List Char)
    (hf1 : ∀ c, isSpacePy c = true → f c = [c])
    (hf2 : ∀ c, isSpacePy c = false → ∀ d ∈ f c, isSpacePy d = false) :
    ∀ (s acc : List Char),
      splitWsGo (s.flatMap f) ((acc.reverse.flatMap f).reverse) =
        ((splitWsGo s acc).map (fun t => t.flatMap f)).filter
          (fun t => !t.isEmpty) := by
  intro s
  induction s with
  | nil =>
    intro acc
    rw [List.flatMap_nil]
    by_cases hacc : acc.isEmpty = true
    · have : acc = [] := List.isEmpty_iff.1 hacc
      subst this
      simp [splitWsGo]
    · by_cases hg : (acc.reverse.flatMap f).isEmpty = true
      · simp [splitWsGo, hacc, isEmpty_reverse, hg]
      · simp [splitWsGo, hacc, isEmpty_reverse, hg]
  | cons c rest ih =>
    intro acc
    have ihnil : splitWsGo (rest.flatMap f) [] =
        ((splitWsGo rest []).map (fun t => t.flatMap f)).filter
          (fun t => !t.isEmpty) := by
      simpa using ih []
    by_cases hc : isSpacePy c = true
    · rw [List.flatMap_cons, hf1 c hc, List.singleton_append]
      by_cases hacc : acc.isEmpty = true
      · have : acc = [] := List.isEmpty_iff.1 hacc
        subst this
        simp [splitWsGo, hc, ihnil]
      · by_cases hg : (acc.reverse.flatMap f).isEmpty = true
        · simp [splitWsGo, hc, hacc, isEmpty_reverse, hg, ihnil]
        · simp [splitWsGo, hc, hacc, isEmpty_reverse, hg, ihnil]
    · have hcf : isSpacePy c = false := by
        cases h : isSpacePy c
        · rfl
        · exact absurd h hc
      rw [List.flatMap_cons,
        splitWsGo_append_nonws (f c) (rest.flatMap f) _ (hf2 c hcf)]
      have hacc : (f c).reverse ++ (acc.reverse.flatMap f).reverse =
          (((c :: acc).reverse).flatMap f).reverse := by
        rw [List.reverse_cons, List.flatMap_append, List.reverse_append]
        simp
      rw [hacc, ih (c :: acc)]
      have hstep : splitWsGo (c :: rest) acc = splitWsGo rest (c :: acc) := by
        simp [splitWsGo, hcf]
      rw [hstep]

theorem splitWs_flatMap (f : Char → List Char)
    (hf1 : ∀ c, isSpacePy c = true → f c = [c])
    (hf2 : ∀ c, isSpacePy c = false → ∀ d ∈ f c, isSpacePy d = false)
    (s : List Char) :
    splitWs (s.flatMap f) =
      ((splitWs s).map (fun t => t.flatMap f)).filter (fun t => !t.isEmpty) := by
  have := splitWsGo_flatMap f hf1 hf2 s []
  simpa [splitWs] using this

theorem splitWsGo_length_congr :
    ∀ (s t acc1 acc2 : List Char),
      s.map isSpacePy = t.map isSpacePy → acc1.isEmpty = acc2.isEmpty →
      (splitWsGo s acc1).length = (splitWsGo t acc2).length := by
  intro s
  induction s with
  | nil =>
    intro t acc1 acc2 hmap hacc
    have ht : t = [] := by
      cases t with
      | nil => rfl
      | cons d t' => exact absurd hmap (by simp)
    subst ht
    simp only [splitWsGo]
    rw [hacc]
    by_cases h2 : acc2.isEmpty = true
    · rw [if_pos h2, if_pos h2]
    · rw [if_neg h2, if_neg h2]
      rfl
  | cons c s' ih =>
    intro t acc1 acc2 hmap hacc
    cases t with
    | nil => exact absurd hmap (by simp)
    | cons d t' =>
      rw [List.map_cons, List.map_cons] at hmap
      have hcd : isSpacePy c = isSpacePy d := (List.cons.injEq _ _ _ _ ▸ hmap).1
      have hmap' : s'.map isSpacePy = t'.map isSpacePy :=
        (List.cons.injEq _ _ _ _ ▸ hmap).2
      by_cases hc : isSpacePy c = true
      · have hd : isSpacePy d = true := hcd ▸ hc
        simp only [splitWsGo]
        rw [if_pos hc, if_pos hd, hacc]
        by_cases h2 : acc2.isEmpty = true
        · rw [if_pos h2, if_pos h2]
          exact ih t' [] [] hmap' rfl
        · rw [if_neg h2, if_neg h2]
          simp only [List.length_cons]
          rw [ih t' [] [] hmap' rfl]
      · have hd : ¬isSpacePy d = true := by rw [← hcd]; exact hc
        simp only [splitWsGo]
        rw [if_neg hc, if_neg hd]
        exact ih t' (c :: acc1) (d :: acc2) hmap' rfl

theorem splitWs_length_congr {s t : List Char}
    (h : s.map isSpacePy = t.map isSpacePy) :
    (splitWs s).length = (splitWs t).length :=
  splitWsGo_length_congr s t [] [] h rfl

theorem length_filter_add_length_filter_not (p : α → Bool) (l : List α) :
    (l.filter p).length + (l.filter (fun a => !p a)).length = l.length := by
  induction l with
  | nil => rfl
  | cons a t ih =>
    by_cases h : p a
    · simp [List.filter_cons, h, ← ih]
      omega
    · have h' : p a = false := by
        cases hh : p a
        · rfl
        · exact absurd hh h
      simp [List.filter_cons, h', ← ih]
      omega

theorem length_filter_mono {p q : α → Bool} {l : List α}
    (h : ∀ a ∈ l, p a = true → q a = true) :
    (l.filter p).length ≤ (l.filter q).length := by
  induction l with
  | nil => exact Nat.le_refl _
  | cons a t ih =>
    have ih' := ih (fun a ha hp => h a (List.mem_cons_of_mem _ ha) hp)
    by_cases hp : p a = true
    · rw [List.filter_cons, if_pos hp, List.filter_cons,
        if_pos (h a (List.mem_cons_self _ _) hp)]
      simpa using ih'
    · rw [List.filter_cons, if_neg hp, List.filter_cons]
      by_cases hq : q a = true
      · rw [if_pos hq]
        exact Nat.le_succ_of_le ih'
      · rw [if_neg hq]
        exact ih'

theorem pyInsert_length (l : List α) (i : Nat) (a : α) :
    (pyInsert l i a).length = l.length + 1 := by
  unfold pyInsert
  simp only [List.length_append, List.length_take, List.length_cons,
    List.length_drop]
  omega

theorem foldl_pyInsert_length (ps : List (Nat × List Char)) :
    ∀ (base : List (List Char)),
      (ps.foldl (fun ts it => pyInsert ts it.1 it.2) base).length =
        base.length + ps.length := by
  induction ps with
  | nil => intro base; rfl
  | cons p ps ih =>
    intro base
    show (ps.foldl _ (pyInsert base p.1 p.2)).length = _
    rw [ih (pyInsert base p.1 p.2), pyInsert_length]
    simp only [List.length_cons]
    omega

theorem enumFrom_filter_snd_length (p : List Char → Bool) :
    ∀ (l : List (List Char)) (n : Nat),
      ((List.enumFrom n l).filter (fun it => p it.2)).length =
        (l.filter p).length := by
  intro l
  induction l with
  | nil => intro n; rfl
  | cons a t ih =>
    intro n
    rw [List.enumFrom_cons, List.filter_cons, List.filter_cons]
    by_cases h : p a = true
    · rw [if_pos (by simpa using h), if_pos h]
      simp only [List.length_cons]
      rw [ih (n + 1)]
    · rw [if_neg (by simpa using h), if_neg h]
      exact ih (n + 1)

theorem punctToks_length (name' : List Char) :
    (punctToks name').length =
      ((splitWs name').filter (fun t => (strip_punct t).isEmpty)).length := by
  unfold punctToks List.enum
  exact enumFrom_filter_snd_length (fun t => (strip_punct t).isEmpty)
    (splitWs name') 0

theorem filter_eq_flatMap (p : α → Bool) (l : List α) :
    l.filter p = l.flatMap (fun a => if p a then [a] else []) := by
  induction l with
  | nil => rfl
  | cons a t ih =>
    rw [List.filter_cons, List.flatMap_cons, ← ih]
    by_cases h : p a
    · rw [if_pos h, if_pos h, List.singleton_append]
    · rw [if_neg h, if_neg h, List.nil_append]

theorem nnameOf_eq_flatMap (U : UnicodeLib) (name' : List Char) :
    nnameOf U name' = name'.flatMap (normPunctChar U) := by
  unfold nnameOf normalized remove_accents_fast strip_punct
  rw [filter_eq_flatMap, List.flatMap_assoc, List.flatMap_assoc]
  congr 1
  funext c
  rw [← List.flatMap_assoc]
  rfl

theorem isSpacePy_cases {c : Char} (h : isSpacePy c = true) :
    c = ' ' ∨ c = '\t' ∨ c = '\n' ∨ c = '\r' ∨ c = '\x0b' ∨ c = '\x0c' := by
  have h2 : ((((c = ' ' ∨ c = '\t') ∨ c = '\n') ∨ c = '\r') ∨ c = '\x0b') ∨
      c = '\x0c' := by
    simpa [isSpacePy] using h
  tauto

theorem normPunctChar_ws (U : UnicodeLib)
    (hcf1 : ∀ c, isSpacePy c = true → U.casefold c = [c]) :
    ∀ c, isSpacePy c = true → normPunctChar U c = [c] := by
  intro c hc
  have hpunct : (!(c == '.' || c == ',' || c == '-')) = true := by
    rcases isSpacePy_cases hc with rfl | rfl | rfl | rfl | rfl | rfl <;> decide
  have hlow : ¬(0x80 ≤ c.toNat ∧ U.combining c) := by
    rcases isSpacePy_cases hc with rfl | rfl | rfl | rfl | rfl | rfl <;>
      · intro hcontra
        exact absurd hcontra.1 (by decide)
  unfold normPunctChar
  rw [if_pos hpunct]
  rw [show ([c] : List Char).flatMap U.casefold = U.casefold c by simp]
  rw [hcf1 c hc]
  rw [show ([c] : List Char).flatMap (translateTab U) = translateTab U c by simp]
  unfold translateTab
  rw [if_neg hlow]

theorem normPunctChar_nonws (U : UnicodeLib)
    (hcf2 : ∀ c, isSpacePy c = false → ∀ d ∈ U.casefold c, isSpacePy d = false) :
    ∀ c, isSpacePy c = false → ∀ d ∈ normPunctChar U c, isSpacePy d = false := by
  intro c hc d hd
  unfold normPunctChar at hd
  rw [List.mem_flatMap] at hd
  obtain ⟨e, he, hde⟩ := hd
  rw [List.mem_flatMap] at he
  obtain ⟨c', hc', hec⟩ := he
  have hcc : c' = c := by
    by_cases hp : (!(c == '.' || c == ',' || c == '-')) = true
    · rw [if_pos hp] at hc'
      simpa using hc'
    · rw [if_neg hp] at hc'
      exact absurd hc' (by simp)
  subst hcc
  have hde' : d = e := by
    unfold translateTab at hde
    by_cases ht : (0x80 ≤ e.toNat ∧ U.combining e)
    · rw [if_pos ht] at hde
      exact absurd hde (by simp)
    · rw [if_neg ht] at hde
      simpa using hde
  subst hde'
  exact hcf2 c' hc d hec

theorem accepted_matches_spec {U : UnicodeLib} {words nname sfx pfx mid} :
    ∀ m ∈ accepted_matches U words nname sfx pfx mid,
      ValidOcc nname m ∧ (m.1, m.2.2.2) ∈ words := by
  intro m hm
  unfold accepted_matches at hm
  rw [List.mem_filterMap] at hm
  obtain ⟨a, ha, hfa⟩ := hm
  by_cases hbf : boundary_filter U nname sfx pfx mid
      (a.1 + 1 - a.2.2.length) a.1 = true
  · rw [if_pos hbf, Option.some.injEq] at hfa
    unfold automaton_iter at ha
    rw [List.mem_flatMap] at ha
    obtain ⟨e, he, hmem⟩ := ha
    rw [List.mem_filterMap] at hmem
    obtain ⟨iw, hiw, hif⟩ := hmem
    obtain ⟨iwi, iww⟩ := iw
    by_cases hocc : occursEndingAt iww nname e = true
    · rw [if_pos hocc, Option.some.injEq] at hif
      unfold occursEndingAt at hocc
      simp only [Bool.and_eq_true, Bool.not_eq_true', decide_eq_true_eq,
        beq_iff_eq] at hocc
      obtain ⟨⟨⟨hne, helt⟩, hlen⟩, htake⟩ := hocc
      subst hif
      dsimp only at hfa
      subst hfa
      unfold ValidOcc
      dsimp only
      refine ⟨⟨?_, by omega, by omega, ?_⟩, hiw⟩
      · intro hcontra
        rw [hcontra] at hne
        exact absurd hne (by decide)
      · exact htake
    · rw [if_neg hocc] at hif
      exact absurd hif (by simp)
  · rw [if_neg hbf] at hfa
    exact absurd hfa (by simp)

theorem sortBy_mem {le : α → α → Bool} {l : List α} {a : α}
    (h : a ∈ sortBy le l) : a ∈ l :=
  (sortBy_perm le l).mem_iff.1 h

theorem marked_map_isSpacePy (U : UnicodeLib) (auto : List (Nat × List Char))
    (name' : List Char) (sfx pfx mid : Bool)
    (hwords : ∀ iw ∈ auto, ∀ c ∈ iw.2, isSpacePy c = true → c = ' ') :
    (markedOf U auto name' sfx pfx mid).map isSpacePy =
      (nnameOf U name').map isSpacePy := by
  unfold markedOf
  have hvalid : ∀ m ∈ sortBy matchLe
      (accepted_matches U auto (nnameOf U name') sfx pfx mid),
      ValidOcc (nnameOf U name') m :=
    fun m hm => (accepted_matches_spec m (sortBy_mem hm)).1
  have hword : ∀ m ∈ sortBy matchLe
      (accepted_matches U auto (nnameOf U name') sfx pfx mid),
      (m.1, m.2.2.2) ∈ auto :=
    fun m hm => (accepted_matches_spec m (sortBy_mem hm)).2
  have hchar := apply_matches_characterization (nnameOf U name')
    (sortBy matchLe (accepted_matches U auto (nnameOf U name') sfx pfx mid))
    (nnameOf U name') (fun _ => false) rfl (fun p => by simp) hvalid
  apply List.ext_getElem?
  intro p
  rw [List.getElem?_map, List.getElem?_map, hchar.2 p]
  by_cases hp : p < (nnameOf U name').length
  · have hsome : (nnameOf U name')[p]? = some ((nnameOf U name')[p]) :=
      List.getElem?_eq_getElem hp
    cases hcov : covered (sortBy matchLe
        (accepted_matches U auto (nnameOf U name') sfx pfx mid)) p with
    | false => simp
    | true =>
      rw [Bool.false_or, hsome]
      simp only [Option.map_some']
      unfold covered at hcov
      rw [List.any_eq_true] at hcov
      obtain ⟨m, hm, hspan⟩ := hcov
      simp only [Bool.and_eq_true, decide_eq_true_eq] at hspan
      obtain ⟨hv1, hv2, hv3, hv4⟩ := hvalid m hm
      have hcin : (nnameOf U name')[p] ∈ m.2.2.2 := by
        have hidx : m.2.2.2[p - m.2.1]? = (nnameOf U name')[p]? := by
          conv_lhs => rw [← hv4]
          rw [List.getElem?_take_of_lt (by omega), List.getElem?_drop]
          congr 1
          omega
        rw [hsome] at hidx
        exact List.getElem?_mem hidx
      rw [if_pos trivial]
      simp only [Option.map_some', Option.some.injEq]
      by_cases hws : isSpacePy ((nnameOf U name')[p]) = true
      · have hsp : (nnameOf U name')[p] = ' ' :=
          hwords _ (hword m hm) _ hcin hws
        rw [hsp]
        decide
      · have hnws : isSpacePy ((nnameOf U name')[p]) = false := by
          cases hh : isSpacePy ((nnameOf U name')[p])
          · rfl
          · exact absurd hh hws
        have hmc : markChar ((nnameOf U name')[p]) = '.' := by
          unfold markChar
          rw [if_pos]
          simp only [bne_iff_ne, ne_eq]
          intro hcontra
          rw [hcontra] at hnws
          exact absurd hnws (by decide)
        rw [hmc, hnws]
        decide
  · have hnone : (nnameOf U name')[p]? = none :=
      List.getElem?_eq_none (Nat.le_of_not_lt hp)
    rw [hnone]
    cases covered (sortBy matchLe
        (accepted_matches U auto (nnameOf U name') sfx pfx mid)) p <;> simp

theorem tokensOf_length_le (U : UnicodeLib) (auto : List (Nat × List Char))
    (name' : List Char) (sfx pfx mid : Bool)
    (hcf1 : ∀ c, isSpacePy c = true → U.casefold c = [c])
    (hcf2 : ∀ c, isSpacePy c = false → ∀ d ∈ U.casefold c, isSpacePy d = false)
    (hwords : ∀ iw ∈ auto, ∀ c ∈ iw.2, isSpacePy c = true → c = ' ') :
    (tokensOf U auto name' sfx pfx mid).length ≤ (splitWs name').length := by
  unfold tokensOf
  rw [foldl_pyInsert_length, punctToks_length]
  have h1 : (splitWs (markedOf U auto name' sfx pfx mid)).length =
      (splitWs (nnameOf U name')).length :=
    splitWs_length_congr (by
      have := marked_map_isSpacePy U auto name' sfx pfx mid hwords
      exact this)
  rw [h1]
  have h2 : splitWs (nnameOf U name') =
      ((splitWs name').map (fun t => t.flatMap (normPunctChar U))).filter
        (fun t => !t.isEmpty) := by
    rw [nnameOf_eq_flatMap]
    exact splitWs_flatMap (normPunctChar U) (normPunctChar_ws U hcf1)
      (normPunctChar_nonws U hcf2) name'
  rw [h2, List.filter_map, List.length_map]
  have hcong : (splitWs name').filter
      ((fun t => !t.isEmpty) ∘ (fun t => t.flatMap (normPunctChar U))) =
      (splitWs name').filter
        (fun t => !(t.flatMap (normPunctChar U)).isEmpty) := rfl
  rw [hcong]
  have hmono : ((splitWs name').filter
      (fun t => (strip_punct t).isEmpty)).length ≤
      ((splitWs name').filter
        (fun t => (t.flatMap (normPunctChar U)).isEmpty)).length := by
    apply length_filter_mono
    intro t _ hpt
    have ht : strip_punct t = [] := List.isEmpty_iff.1 hpt
    have hall := List.filter_eq_nil_iff.1 ht
    rw [List.isEmpty_iff, List.flatMap_eq_nil_iff]
    intro c hc
    have hcp := hall c hc
    unfold normPunctChar
    rw [if_neg hcp]
    rfl
  have hsum := length_filter_add_length_filter_not
    (fun t => !(t.flatMap (normPunctChar U)).isEmpty) (splitWs name')
  have hcsum : ((splitWs name').filter
      (fun t => !(!(t.flatMap (normPunctChar U)).isEmpty))) =
      (splitWs name').filter
        (fun t => (t.flatMap (normPunctChar U)).isEmpty) :=
    List.filter_congr (fun t _ => Bool.not_not _)
  rw [hcsum] at hsum
  omega

theorem finalToks_isSome (nparts : List (List Char)) :
    ∀ (toks : List (List Char)) (i : Nat), i + toks.length ≤ nparts.length →
      (finalToks nparts toks i).isSome = true := by
  intro toks
  induction toks with
  | nil =>
    intro i _
    rfl
  | cons x rest ih =>
    intro i hle
    rw [List.length_cons] at hle
    unfold finalToks
    split
    · have hlt : i < nparts.length := by omega
      have hget : nparts.get? i = some nparts[i] := by
        rw [List.get?_eq_getElem?]
        exact List.getElem?_eq_getElem hlt
      rw [hget]
      have hrec := ih (i + 1) (by omega)
      cases hr : finalToks nparts rest (i + 1) with
      | none =>
        rw [hr] at hrec
        exact absurd hrec (by simp)
      | some l => rfl
    · exact ih (i + 1) (by omega)

/-- C10: over a built catalog — the stored words contain no whitespace
beyond the single spaces joining their tokens — and a whitespace-respecting
case-folding primitive, `custom_basename` is total: it returns a string for
every input and flag combination (the reconstruction index into the
original token list never goes out of range), and the clamped character
indexes used by the boundary checks stay in range for every candidate
occurrence. -/
theorem c10_total_on_built_catalog (U : UnicodeLib) (st name terms sfx pfx mid)
    (hcf1 : ∀ c, isSpacePy c = true → U.casefold c = [c])
    (hcf2 : ∀ c, isSpacePy c = false → ∀ d ∈ U.casefold c, isSpacePy d = false)
    (hwords : ∀ iw ∈ autoOf st terms, ∀ c ∈ iw.2, isSpacePy c = true → c = ' ') :
    ((custom_basename U st name terms sfx pfx mid).1).isSome = true ∧
      (∀ m ∈ automaton_iter (autoOf st terms) (nnameOf U (strip_tail U name)),
        m.1 + 1 - m.2.2.length - 1 < (nnameOf U (strip_tail U name)).length ∧
        min ((nnameOf U (strip_tail U name)).length - 1) (m.1 + 1) <
          (nnameOf U (strip_tail U name)).length) := by
  constructor
  · unfold custom_basename
    split
    · rfl
    · have hle := tokensOf_length_le U (autoOf st terms) (strip_tail U name)
        sfx pfx mid hcf1 hcf2 hwords
      have hsome := finalToks_isSome (splitWs (strip_tail U name))
        (tokensOf U (autoOf st terms) (strip_tail U name) sfx pfx mid) 0
        (by simpa using hle)
      split
      · rename_i heq
        rw [heq] at hsome
        exact absurd hsome (by simp)
      · rfl
  · intro m hm
    unfold automaton_iter at hm
    rw [List.mem_flatMap] at hm
    obtain ⟨e, he, hmem⟩ := hm
    rw [List.mem_filterMap] at hmem
    obtain ⟨iw, hiw, hif⟩ := hmem
    by_cases hocc : occursEndingAt iw.2 (nnameOf U (strip_tail U name)) e = true
    · rw [if_pos hocc, Option.some.injEq] at hif
      subst hif
      unfold occursEndingAt at hocc
      simp only [Bool.and_eq_true, Bool.not_eq_true', decide_eq_true_eq,
        beq_iff_eq] at hocc
      obtain ⟨⟨⟨hne, helt⟩, hlen⟩, htake⟩ := hocc
      dsimp only
      constructor
      · omega
      · exact Nat.lt_of_le_of_lt (Nat.min_le_left _ _) (by omega)
    · rw [if_neg hocc] at hif
      exact absurd hif (by simp)

/-- Witness for C10: a concrete call over a built catalog returns a string
and its candidate occurrences index in range. -/
theorem c10_total_on_built_catalog_witness :
    ((custom_basename idLib none (chars "acme ltd") [(1, [chars "ltd"])]
        true false false).1).isSome = true ∧
      (∀ m ∈ automaton_iter (autoOf none [(1, [chars "ltd"])])
          (nnameOf idLib (strip_tail idLib (chars "acme ltd"))),
        m.1 + 1 - m.2.2.length - 1 <
          (nnameOf idLib (strip_tail idLib (chars "acme ltd"))).length ∧
        min ((nnameOf idLib (strip_tail idLib (chars "acme ltd"))).length - 1)
            (m.1 + 1) <
          (nnameOf idLib (strip_tail idLib (chars "acme ltd"))).length) :=
  c10_total_on_built_catalog idLib none (chars "acme ltd")
    [(1, [chars "ltd"])] true false false (fun _ _ => rfl)
    (fun c hc d hd => by
      have hd' : d = c := by simpa [idLib] using hd
      rw [hd']
      exact hc)
    (by decide)
